import Mathlib

/-!
Verification of the two-phase string interner (`src/interner.rs`):
a mutable `InternerBuilder` that assigns symbols to strings, and an
immutable `Resolver` produced by `build` that packs every interned
string into one contiguous arena and resolves symbols back to strings.

The Rust code is embedded shallowly:
* `NonZeroU32` counters become `Nat` with an explicit saturation point
  `symMax = 2 ^ 32 - 1` (`NonZeroU32.saturating_add` clamps there);
* the `HashMap<Box<str>, NonZeroU32>` becomes an association list with
  first-match lookup (the builder only ever inserts keys that are absent,
  so every key occurs at most once on all paths exercised here);
* the byte arena becomes a flat `List Char` (the packed character data of
  every interned string, back to back), with `(offset, length)` slices;
* `sort_by_key` (a stable sort) becomes `List.insertionSort` on the
  symbol component, which is also stable;
* the fallible serde decoder becomes a function into `Except String`.
-/

/-- The value `u32::MAX`, the saturation point of the `NonZeroU32` symbol
counter: `NonZeroU32.saturating_add` clamps at `2 ^ 32 - 1`. -/
def symMax : Nat := 2 ^ 32 - 1

/-- First-match lookup in the association-list model of the
`HashMap<Box<str>, NonZeroU32>` of the builder. -/
def lookup : List (String × Nat) → String → Option Nat
  | [], _ => none
  | p :: ps, s => if p.1 = s then some p.2 else lookup ps s

/-- Builder state (`InternerBuilder` in the source): the running symbol
counter `count` (a `NonZeroU32`, starting at 1) and the map `map_strs`
from owned strings to their symbols. -/
structure InternerBuilder where
  count : Nat
  map_strs : List (String × Nat)
deriving DecidableEq

/-- Model of `InternerBuilder::new()`: counter 1, empty map. -/
def InternerBuilder.new : InternerBuilder :=
  { count := 1, map_strs := [] }

/-- Model of `InternerBuilder::get_or_intern`: return the existing symbol when the
string is present; otherwise insert it with the current counter value and
advance the counter with `saturating_add(1)` (modelled as
`min (count + 1) symMax`). Returns the symbol together with the updated
builder (the `&mut self` state). -/
def InternerBuilder.get_or_intern (b : InternerBuilder) (val : String) :
    Nat × InternerBuilder :=
  match lookup b.map_strs val with
  | some sym => (sym, b)
  | none =>
      (b.count,
        { count := min (b.count + 1) symMax,
          map_strs := (val, b.count) :: b.map_strs })

/-- One step of the arena-packing loop in `InternerBuilder::build`: push the
triple `(symbol, current arena length, string length)` and append the
character data of the string to the arena. -/
def packStep (acc : List (Nat × Nat × Nat) × List Char) (p : String × Nat) :
    List (Nat × Nat × Nat) × List Char :=
  (acc.1 ++ [(p.2, acc.2.length, p.1.data.length)], acc.2 ++ p.1.data)

/-- The arena-packing loop of `InternerBuilder::build`: fold over the map
entries accumulating the `indices` vector and the `arena` buffer. -/
def pack (m : List (String × Nat)) : List (Nat × Nat × Nat) × List Char :=
  m.foldl packStep ([], [])

/-- Reconstructing a string view from the arena: slice
`[start, start + len)` out of the packed character data
(`from_utf8_unchecked(from_raw_parts(arena_ptr.add(start), len))`). -/
def sliceArena (arena : List Char) (start len : Nat) : String :=
  ⟨(arena.drop start).take len⟩

/-- Resolver state (`Resolver` in the source): the reverse map
`strs_map : string view → symbol`, the forward sequence `strs` of string
views indexed by symbol (index 0 is the sentinel `""`), and the packed
`arena`. -/
structure Resolver where
  strs_map : List (String × Nat)
  strs : List String
  arena : List Char
deriving DecidableEq

/-- Model of `InternerBuilder::build`: pack all map entries into the arena, sort the
`(symbol, offset, length)` triples by symbol (stable `sort_by_key`), then
produce the forward sequence `"" :: views` and the reverse map from the
same views. -/
def InternerBuilder.build (b : InternerBuilder) : Resolver :=
  let pr := pack b.map_strs
  let indices := List.insertionSort (fun t u => t.1 ≤ u.1) pr.1
  { strs_map := indices.map (fun t => (sliceArena pr.2 t.2.1 t.2.2, t.1)),
    strs := "" :: indices.map (fun t => sliceArena pr.2 t.2.1 t.2.2),
    arena := pr.2 }

/-- Model of `Resolver::get`: reverse lookup of the symbol of a string. -/
def Resolver.get (r : Resolver) (val : String) : Option Nat :=
  lookup r.strs_map val

/-- Model of `Resolver::resolve_unchecked`: index the forward sequence. The
precondition in the source is `sym < len()`; out-of-range access is
undefined behaviour there and is modelled by the default value. -/
def Resolver.resolve_unchecked (r : Resolver) (sym : Nat) : String :=
  r.strs.getD sym ""

/-- Model of `Resolver::resolve_many_unchecked_from_slice`: elementwise
`resolve_unchecked`. -/
def Resolver.resolve_many_unchecked_from_slice (r : Resolver)
    (syms : List Nat) : List String :=
  syms.map (fun sym => r.strs.getD sym "")

/-- Model of `Resolver::len`: length of the forward sequence (distinct interned
strings plus the sentinel). -/
def Resolver.len (r : Resolver) : Nat :=
  r.strs.length

/-- Model of `serde::Serialize for Resolver`: emit the forward sequence in order,
sentinel included. -/
def Resolver.serialize (r : Resolver) : List String :=
  r.strs

/-- The decoding loop of `serde::Deserialize for Resolver`: for each value,
a vacant map entry is inserted with the current counter (which is then
advanced with `saturating_add(1)`); an occupied entry aborts with the
`Duplicate value` error. -/
def deserializeGo (b : InternerBuilder) :
    List String → Except String InternerBuilder
  | [] => Except.ok b
  | v :: vs =>
      match lookup b.map_strs v with
      | some _ => Except.error "Duplicate value"
      | none =>
          deserializeGo
            { count := min (b.count + 1) symMax,
              map_strs := (v, b.count) :: b.map_strs } vs

/-- Model of `serde::Deserialize for Resolver`: skip the first element of the decoded
sequence, intern the rest in order (failing on a repeated value), and build
the resulting builder. -/
def Resolver.deserialize (values : List String) : Except String Resolver :=
  (deserializeGo InternerBuilder.new (values.drop 1)).map InternerBuilder.build

/-- A sequence of `get_or_intern` calls, discarding the returned symbols:
the builder obtained after interning every string of `ws` in order. -/
def internAll (b : InternerBuilder) (ws : List String) : InternerBuilder :=
  ws.foldl (fun b w => (b.get_or_intern w).2) b

/-- Invariant of every builder reachable through `get_or_intern` while the
counter has not saturated: keys and symbols are duplicate-free, symbols lie
in `[1, count)`, and the counter equals one plus the number of entries. -/
structure WFb (b : InternerBuilder) : Prop where
  keys_nodup : (b.map_strs.map Prod.fst).Nodup
  vals_nodup : (b.map_strs.map Prod.snd).Nodup
  vals_pos : ∀ p ∈ b.map_strs, 1 ≤ p.2
  vals_lt : ∀ p ∈ b.map_strs, p.2 < b.count
  count_eq : b.count = 1 + b.map_strs.length
  count_le : b.count ≤ symMax

/-- Specification of the triples produced by the packing loop: each entry
contributes `(symbol, offset, length)` where the offset is the running sum
of the preceding string lengths. -/
def packSpec (off : Nat) : List (String × Nat) → List (Nat × Nat × Nat)
  | [] => []
  | p :: ps => (p.2, off, p.1.data.length) :: packSpec (off + p.1.data.length) ps

/-- The packed arena contents: the character data of every map entry,
concatenated in iteration order. -/
def datas (m : List (String × Nat)) : List Char :=
  (m.map (fun p => p.1.data)).flatten

/-- A family of pairwise-distinct nonempty strings (`"a"`, `"aa"`, ...)
large enough to drive the symbol counter to its saturation point:
`symMax - 1` distinct strings interned from a fresh builder leave the
counter at exactly `symMax`. -/
def satFam : List String :=
  (List.range (symMax - 1)).map (fun i => ⟨List.replicate (i + 1) 'a'⟩)

@[simp] lemma internAll_nil (b : InternerBuilder) : internAll b [] = b := rfl

@[simp] lemma internAll_cons (b : InternerBuilder) (w : String) (ws : List String) :
    internAll b (w :: ws) = internAll (b.get_or_intern w).2 ws := rfl

lemma lookup_eq_none (m : List (String × Nat)) (s : String) :
    lookup m s = none ↔ s ∉ m.map Prod.fst := by
  induction m with
  | nil => simp [lookup]
  | cons p ps ih =>
      simp only [List.map_cons, List.mem_cons]
      by_cases h : p.1 = s
      · simp [lookup, h]
      · simp only [lookup, h, if_false]
        rw [ih]
        constructor
        · intro hn hc
          rcases hc with he | hm
          · exact h he.symm
          · exact hn hm
        · intro hn hm
          exact hn (Or.inr hm)

lemma lookup_mem {m : List (String × Nat)} {s : String} {k : Nat}
    (h : lookup m s = some k) : (s, k) ∈ m := by
  induction m with
  | nil => simp [lookup] at h
  | cons p ps ih =>
      rw [List.mem_cons]
      by_cases hp : p.1 = s
      · simp [lookup, hp] at h
        left
        rw [← hp, ← h]
      · simp [lookup, hp] at h
        right
        exact ih h

lemma lookup_of_mem_nodup {m : List (String × Nat)} {s : String} {k : Nat}
    (hnd : (m.map Prod.fst).Nodup) (hmem : (s, k) ∈ m) :
    lookup m s = some k := by
  induction m with
  | nil => simp at hmem
  | cons p ps ih =>
      simp only [List.map_cons, List.nodup_cons] at hnd
      rcases List.mem_cons.mp hmem with h | h
      · simp [lookup, ← h]
      · have hne : p.1 ≠ s := by
          intro he
          exact hnd.1 (he ▸ List.mem_map_of_mem Prod.fst h)
        simp [lookup, hne, ih hnd.2 h]

lemma lookup_perm {m m' : List (String × Nat)}
    (hnd : (m.map Prod.fst).Nodup) (hp : m.Perm m') (s : String) :
    lookup m s = lookup m' s := by
  have hnd' : (m'.map Prod.fst).Nodup := ((hp.map Prod.fst).nodup_iff).mp hnd
  cases h : lookup m s with
  | none =>
      symm
      rw [lookup_eq_none] at h ⊢
      intro hm
      exact h (((hp.map Prod.fst).mem_iff).mpr hm)
  | some k =>
      exact (lookup_of_mem_nodup hnd' (hp.mem_iff.mp (lookup_mem h))).symm

lemma get_or_intern_of_mem {b : InternerBuilder} {s : String} {k : Nat}
    (h : lookup b.map_strs s = some k) : b.get_or_intern s = (k, b) := by
  simp [InternerBuilder.get_or_intern, h]

lemma get_or_intern_of_fresh {b : InternerBuilder} {s : String}
    (h : lookup b.map_strs s = none) :
    b.get_or_intern s =
      (b.count, ⟨min (b.count + 1) symMax, (s, b.count) :: b.map_strs⟩) := by
  simp [InternerBuilder.get_or_intern, h]

lemma lookup_get_or_intern_self (b : InternerBuilder) (s : String) :
    lookup (b.get_or_intern s).2.map_strs s = some (b.get_or_intern s).1 := by
  cases h : lookup b.map_strs s with
  | some k => simp [get_or_intern_of_mem h, h]
  | none => simp [get_or_intern_of_fresh h, lookup]

lemma lookup_get_or_intern_preserve {b : InternerBuilder} {t : String} {k : Nat}
    (h : lookup b.map_strs t = some k) (s : String) :
    lookup (b.get_or_intern s).2.map_strs t = some k := by
  cases hs : lookup b.map_strs s with
  | some k' => simp [get_or_intern_of_mem hs, h]
  | none =>
      have hne : ¬ (s = t) := by
        rintro rfl
        rw [h] at hs
        cases hs
      simp [get_or_intern_of_fresh hs, lookup, hne, h]

lemma lookup_internAll_preserve {b : InternerBuilder} {t : String} {k : Nat}
    (h : lookup b.map_strs t = some k) (ws : List String) :
    lookup (internAll b ws).map_strs t = some k := by
  induction ws generalizing b with
  | nil => exact h
  | cons w ws ih =>
      rw [internAll_cons]
      exact ih (lookup_get_or_intern_preserve h w)

lemma keys_get_or_intern_sub {b : InternerBuilder} {s x : String}
    (h : x ∈ (b.get_or_intern s).2.map_strs.map Prod.fst) :
    x = s ∨ x ∈ b.map_strs.map Prod.fst := by
  cases hs : lookup b.map_strs s with
  | some k =>
      right
      simpa [get_or_intern_of_mem hs] using h
  | none =>
      simpa [get_or_intern_of_fresh hs] using h

lemma keys_internAll_sub {ws : List String} :
    ∀ {b : InternerBuilder} {x : String},
      x ∈ (internAll b ws).map_strs.map Prod.fst →
      x ∈ ws ∨ x ∈ b.map_strs.map Prod.fst := by
  induction ws with
  | nil => intro b x h; right; exact h
  | cons w ws ih =>
      intro b x h
      rw [internAll_cons] at h
      rcases ih h with h' | h'
      · left; exact List.mem_cons_of_mem _ h'
      · rcases keys_get_or_intern_sub h' with h'' | h''
        · left; rw [h'']; exact List.mem_cons_self _ _
        · right; exact h''

lemma keys_nodup_get_or_intern {b : InternerBuilder}
    (h : (b.map_strs.map Prod.fst).Nodup) (s : String) :
    ((b.get_or_intern s).2.map_strs.map Prod.fst).Nodup := by
  cases hs : lookup b.map_strs s with
  | some k => simpa [get_or_intern_of_mem hs] using h
  | none =>
      have hnm : s ∉ b.map_strs.map Prod.fst := (lookup_eq_none _ _).mp hs
      simp [get_or_intern_of_fresh hs, h, hnm]

lemma keys_nodup_internAll {ws : List String} :
    ∀ {b : InternerBuilder}, (b.map_strs.map Prod.fst).Nodup →
      ((internAll b ws).map_strs.map Prod.fst).Nodup := by
  induction ws with
  | nil => intro b h; exact h
  | cons w ws ih =>
      intro b h
      rw [internAll_cons]
      exact ih (keys_nodup_get_or_intern h w)

lemma internAll_fresh_keys {ws : List String} :
    ∀ {b : InternerBuilder}, (∀ w ∈ ws, lookup b.map_strs w = none) →
      ws.Nodup →
      (internAll b ws).map_strs.map Prod.fst =
        ws.reverse ++ b.map_strs.map Prod.fst := by
  induction ws with
  | nil => intro b _ _; simp
  | cons w ws ih =>
      intro b hf hnd
      have hw : lookup b.map_strs w = none := hf w (List.mem_cons_self _ _)
      rw [internAll_cons, get_or_intern_of_fresh hw]
      have hf' : ∀ v ∈ ws,
          lookup ((w, b.count) :: b.map_strs) v = none := by
        intro v hv
        have hvw : ¬ (w = v) := by
          rintro rfl
          exact (List.nodup_cons.mp hnd).1 hv
        simp [lookup, hvw, hf v (List.mem_cons_of_mem _ hv)]
      have := ih (b := ⟨min (b.count + 1) symMax, (w, b.count) :: b.map_strs⟩)
        hf' (List.nodup_cons.mp hnd).2
      rw [this]
      simp

lemma internAll_fresh_count {ws : List String} :
    ∀ {b : InternerBuilder}, (∀ w ∈ ws, lookup b.map_strs w = none) →
      ws.Nodup → b.count ≤ symMax →
      (internAll b ws).count = min (b.count + ws.length) symMax := by
  induction ws with
  | nil =>
      intro b _ _ hle
      simp [Nat.min_eq_left hle]
  | cons w ws ih =>
      intro b hf hnd hle
      have hw : lookup b.map_strs w = none := hf w (List.mem_cons_self _ _)
      rw [internAll_cons, get_or_intern_of_fresh hw]
      have hf' : ∀ v ∈ ws,
          lookup ((w, b.count) :: b.map_strs) v = none := by
        intro v hv
        have hvw : ¬ (w = v) := by
          rintro rfl
          exact (List.nodup_cons.mp hnd).1 hv
        simp [lookup, hvw, hf v (List.mem_cons_of_mem _ hv)]
      have := ih (b := ⟨min (b.count + 1) symMax, (w, b.count) :: b.map_strs⟩)
        hf' (List.nodup_cons.mp hnd).2 (Nat.min_le_right _ _)
      rw [this]
      simp only [List.length_cons]
      omega

lemma internAll_fresh_length {ws : List String} {b : InternerBuilder}
    (hf : ∀ w ∈ ws, lookup b.map_strs w = none) (hnd : ws.Nodup) :
    (internAll b ws).map_strs.length = ws.length + b.map_strs.length := by
  have h := congrArg List.length (internAll_fresh_keys hf hnd)
  simpa using h

lemma wf_new : WFb InternerBuilder.new := by
  refine ⟨?_, ?_, ?_, ?_, ?_, ?_⟩ <;>
    simp [InternerBuilder.new, symMax]

lemma wf_get_or_intern {b : InternerBuilder} (hb : WFb b)
    (hlt : b.count < symMax) (s : String) :
    WFb (b.get_or_intern s).2 ∧ (b.get_or_intern s).2.count ≤ b.count + 1 := by
  cases hs : lookup b.map_strs s with
  | some k =>
      rw [get_or_intern_of_mem hs]
      exact ⟨hb, Nat.le_succ _⟩
  | none =>
      rw [get_or_intern_of_fresh hs]
      have hmin : min (b.count + 1) symMax = b.count + 1 :=
        Nat.min_eq_left (by omega)
      have hpos : 1 ≤ b.count := by
        have := hb.count_eq
        omega
      refine ⟨⟨?_, ?_, ?_, ?_, ?_, ?_⟩, ?_⟩
      · have hnm : s ∉ b.map_strs.map Prod.fst := (lookup_eq_none _ _).mp hs
        exact List.nodup_cons.mpr ⟨hnm, hb.keys_nodup⟩
      · have hnv : b.count ∉ b.map_strs.map Prod.snd := by
          intro hv
          obtain ⟨p, hp, hpe⟩ := List.mem_map.mp hv
          exact absurd hpe (Nat.ne_of_lt (hb.vals_lt p hp))
        exact List.nodup_cons.mpr ⟨hnv, hb.vals_nodup⟩
      · intro p hp
        rcases List.mem_cons.mp hp with he | hm
        · rw [he]; exact hpos
        · exact hb.vals_pos p hm
      · intro p hp
        simp only [hmin]
        rcases List.mem_cons.mp hp with he | hm
        · rw [he]; exact Nat.lt_succ_self _
        · exact Nat.lt_succ_of_lt (hb.vals_lt p hm)
      · simp only [hmin, List.length_cons]
        have := hb.count_eq
        omega
      · simp only [hmin]
        omega
      · show min (b.count + 1) symMax ≤ b.count + 1
        exact Nat.min_le_left _ _

lemma wf_internAll {ws : List String} :
    ∀ {b : InternerBuilder}, WFb b → b.count + ws.length ≤ symMax →
      WFb (internAll b ws) ∧
        (internAll b ws).count ≤ b.count + ws.length := by
  induction ws with
  | nil =>
      intro b hb _
      exact ⟨hb, by simp⟩
  | cons w ws ih =>
      intro b hb hle
      rw [internAll_cons]
      simp only [List.length_cons] at hle
      have hlt : b.count < symMax := by omega
      obtain ⟨hb', hc'⟩ := wf_get_or_intern hb hlt w
      obtain ⟨hb'', hc''⟩ := ih hb' (by omega)
      exact ⟨hb'', by simp only [List.length_cons]; omega⟩

lemma lookup_bounds {b : InternerBuilder} (hb : WFb b) {s : String} {k : Nat}
    (h : lookup b.map_strs s = some k) : 1 ≤ k ∧ k < b.count :=
  ⟨hb.vals_pos _ (lookup_mem h), hb.vals_lt _ (lookup_mem h)⟩

lemma mem_inj_of_vals_nodup :
    ∀ {m : List (String × Nat)}, (m.map Prod.snd).Nodup →
      ∀ {s1 s2 : String} {k : Nat}, (s1, k) ∈ m → (s2, k) ∈ m → s1 = s2 := by
  intro m
  induction m with
  | nil =>
      intro _ s1 s2 k h
      simp at h
  | cons p ps ih =>
      intro hnd s1 s2 k h1 h2
      simp only [List.map_cons, List.nodup_cons] at hnd
      rcases List.mem_cons.mp h1 with e1 | m1
      · cases e1.symm
        rcases List.mem_cons.mp h2 with e2 | m2
        · exact (Prod.ext_iff.mp e2).1.symm
        · exact absurd (List.mem_map_of_mem Prod.snd m2) hnd.1
      · rcases List.mem_cons.mp h2 with e2 | m2
        · cases e2.symm
          exact absurd (List.mem_map_of_mem Prod.snd m1) hnd.1
        · exact ih hnd.2 m1 m2

lemma lookup_injective {b : InternerBuilder} (hb : WFb b)
    {s1 s2 : String} {k1 k2 : Nat} (h1 : lookup b.map_strs s1 = some k1)
    (h2 : lookup b.map_strs s2 = some k2) (hne : s1 ≠ s2) : k1 ≠ k2 := by
  rintro rfl
  exact hne (mem_inj_of_vals_nodup hb.vals_nodup (lookup_mem h1) (lookup_mem h2))

lemma pack_go (m : List (String × Nat)) :
    ∀ (ix : List (Nat × Nat × Nat)) (ar : List Char),
      m.foldl packStep (ix, ar) = (ix ++ packSpec ar.length m, ar ++ datas m) := by
  induction m with
  | nil =>
      intro ix ar
      simp [packSpec, datas]
  | cons p ps ih =>
      intro ix ar
      rw [List.foldl_cons]
      have hstep : packStep (ix, ar) p =
          (ix ++ [(p.2, ar.length, p.1.data.length)], ar ++ p.1.data) := rfl
      rw [hstep, ih]
      simp [packSpec, datas, List.append_assoc]

lemma pack_eq (m : List (String × Nat)) :
    pack m = (packSpec 0 m, datas m) := by
  have h := pack_go m [] []
  simpa [pack] using h

lemma packSpec_slices (m : List (String × Nat)) :
    ∀ (pre : List Char),
      (packSpec pre.length m).map
        (fun t => (sliceArena (pre ++ datas m) t.2.1 t.2.2, t.1)) = m := by
  induction m with
  | nil =>
      intro pre
      simp [packSpec]
  | cons p ps ih =>
      intro pre
      simp only [packSpec, List.map_cons]
      congr 1
      · have harena : pre ++ datas (p :: ps) = pre ++ (p.1.data ++ datas ps) := by
          simp [datas]
        rw [harena]
        show (sliceArena (pre ++ (p.1.data ++ datas ps)) pre.length p.1.data.length,
          p.2) = p
        rw [sliceArena, List.drop_left, List.take_left]
      · have harena : pre ++ datas (p :: ps) = (pre ++ p.1.data) ++ datas ps := by
          simp [datas, List.append_assoc]
        have hlen : pre.length + p.1.data.length = (pre ++ p.1.data).length := by
          simp
        rw [harena, hlen]
        exact ih (pre ++ p.1.data)

lemma pack_pairs (m : List (String × Nat)) :
    (pack m).1.map (fun t => (sliceArena (pack m).2 t.2.1 t.2.2, t.1)) = m := by
  have h := packSpec_slices m []
  simpa [pack_eq] using h

lemma build_strs_map_perm (b : InternerBuilder) :
    b.build.strs_map.Perm b.map_strs ∧
      b.build.strs = "" :: b.build.strs_map.map Prod.fst := by
  have hsm : b.build.strs_map =
      (List.insertionSort (fun t u => t.1 ≤ u.1) (pack b.map_strs).1).map
        (fun t => (sliceArena (pack b.map_strs).2 t.2.1 t.2.2, t.1)) := by
    simp [InternerBuilder.build]
  have hstrs : b.build.strs =
      "" :: (List.insertionSort (fun t u => t.1 ≤ u.1) (pack b.map_strs).1).map
        (fun t => sliceArena (pack b.map_strs).2 t.2.1 t.2.2) := by
    simp [InternerBuilder.build]
  constructor
  · rw [hsm]
    have hperm := (List.perm_insertionSort (fun t u => t.1 ≤ u.1)
        (pack b.map_strs).1).map
      (fun t => (sliceArena (pack b.map_strs).2 t.2.1 t.2.2, t.1))
    rw [pack_pairs] at hperm
    exact hperm
  · rw [hsm, hstrs, List.map_map]
    rfl

lemma build_vals_sorted (b : InternerBuilder) :
    (b.build.strs_map.map Prod.snd).Pairwise (· ≤ ·) := by
  haveI : IsTotal (Nat × Nat × Nat) (fun t u => t.1 ≤ u.1) :=
    ⟨fun a b => Nat.le_total _ _⟩
  haveI : IsTrans (Nat × Nat × Nat) (fun t u => t.1 ≤ u.1) :=
    ⟨fun a b c => Nat.le_trans⟩
  have hsorted : (List.insertionSort (fun t u => t.1 ≤ u.1)
      (pack b.map_strs).1).Pairwise (fun t u => t.1 ≤ u.1) :=
    List.sorted_insertionSort _ _
  have hsm : b.build.strs_map =
      (List.insertionSort (fun t u => t.1 ≤ u.1) (pack b.map_strs).1).map
        (fun t => (sliceArena (pack b.map_strs).2 t.2.1 t.2.2, t.1)) := by
    simp [InternerBuilder.build]
  rw [hsm, List.map_map]
  exact List.Pairwise.map _ (fun a b h => h) hsorted

lemma range'_pairwise_lt (n : Nat) : ∀ (s : Nat),
    (List.range' s n).Pairwise (· < ·) := by
  induction n with
  | zero => intro s; simp
  | succ n ih =>
      intro s
      rw [List.range'_succ]
      refine List.Pairwise.cons ?_ (ih (s + 1))
      intro x hx
      obtain ⟨i, _, hxe⟩ := List.mem_range'.mp hx
      omega

lemma build_vals_eq_range' (b : InternerBuilder) (hb : WFb b) :
    b.build.strs_map.map Prod.snd = List.range' 1 b.map_strs.length := by
  obtain ⟨hperm, -⟩ := build_strs_map_perm b
  have hvperm : (b.build.strs_map.map Prod.snd).Perm
      (b.map_strs.map Prod.snd) := hperm.map Prod.snd
  have hvnd : (b.build.strs_map.map Prod.snd).Nodup :=
    hvperm.nodup_iff.mpr hb.vals_nodup
  have hsub : b.map_strs.map Prod.snd ⊆ List.range' 1 b.map_strs.length := by
    intro k hk
    obtain ⟨p, hp, hpe⟩ := List.mem_map.mp hk
    have h1 := hb.vals_pos p hp
    have h2 := hb.vals_lt p hp
    rw [hb.count_eq] at h2
    rw [List.mem_range']
    exact ⟨k - 1, by omega, by omega⟩
  have hperm2 : (b.map_strs.map Prod.snd).Perm
      (List.range' 1 b.map_strs.length) := by
    refine (List.subperm_of_subset hb.vals_nodup hsub).perm_of_length_le ?_
    simp
  have hlt : (b.build.strs_map.map Prod.snd).Pairwise (· < ·) := by
    refine ((build_vals_sorted b).and hvnd).imp ?_
    intro a b h
    exact Nat.lt_of_le_of_ne h.1 h.2
  haveI : IsAntisymm Nat (· < ·) :=
    ⟨fun a b h1 h2 => absurd h2 (Nat.lt_asymm h1)⟩
  exact List.eq_of_perm_of_sorted (hvperm.trans hperm2) hlt (range'_pairwise_lt _ 1)

lemma getD_of_mem_vals_range' :
    ∀ (l : List (String × Nat)) (j : Nat),
      l.map Prod.snd = List.range' j l.length →
      ∀ {s : String} {k : Nat}, (s, k) ∈ l →
        j ≤ k ∧ k < j + l.length ∧ (l.map Prod.fst).getD (k - j) "" = s := by
  intro l
  induction l with
  | nil =>
      intro j _ s k h
      simp at h
  | cons p ps ih =>
      intro j hv s k hmem
      rw [List.map_cons, List.length_cons, List.range'_succ] at hv
      have hpj : p.2 = j := (List.cons.injEq _ _ _ _ ▸ hv).1
      have hps : ps.map Prod.snd = List.range' (j + 1) ps.length :=
        (List.cons.injEq _ _ _ _ ▸ hv).2
      rcases List.mem_cons.mp hmem with he | hm
      · have hk : k = j := by
          have := (Prod.ext_iff.mp he).2
          simp at this
          omega
        have hs : p.1 = s := (Prod.ext_iff.mp he).1.symm
        refine ⟨by omega, by simp [List.length_cons]; omega, ?_⟩
        simp [hk, hs]
      · obtain ⟨h1, h2, h3⟩ := ih (j + 1) hps hm
        refine ⟨by omega, by simp [List.length_cons]; omega, ?_⟩
        have hkj : k - j = (k - (j + 1)) + 1 := by omega
        rw [List.map_cons, hkj, List.getD_cons_succ]
        exact h3

lemma build_len_eq (b : InternerBuilder) :
    b.build.len = b.map_strs.length + 1 := by
  obtain ⟨hperm, hstrs⟩ := build_strs_map_perm b
  simp [Resolver.len, hstrs, hperm.length_eq]

lemma build_resolve {b : InternerBuilder} (hb : WFb b) {s : String} {k : Nat}
    (h : lookup b.map_strs s = some k) :
    k < b.build.len ∧ b.build.resolve_unchecked k = s := by
  obtain ⟨hperm, hstrs⟩ := build_strs_map_perm b
  have hv : b.build.strs_map.map Prod.snd =
      List.range' 1 b.build.strs_map.length := by
    rw [build_vals_eq_range' b hb, hperm.length_eq]
  have hmem' : (s, k) ∈ b.build.strs_map := hperm.mem_iff.mpr (lookup_mem h)
  obtain ⟨h1, h2, h3⟩ := getD_of_mem_vals_range' _ 1 hv hmem'
  have hlen : b.build.len = b.build.strs_map.length + 1 := by
    simp [Resolver.len, hstrs]
  constructor
  · omega
  · rw [Resolver.resolve_unchecked, hstrs]
    have hk : k = (k - 1) + 1 := by omega
    rw [hk, List.getD_cons_succ]
    exact h3

lemma build_get (b : InternerBuilder) (hb : WFb b) (s : String) :
    b.build.get s = lookup b.map_strs s := by
  obtain ⟨hperm, -⟩ := build_strs_map_perm b
  have hnd : (b.build.strs_map.map Prod.fst).Nodup :=
    ((hperm.map Prod.fst).nodup_iff).mpr hb.keys_nodup
  rw [Resolver.get]
  exact lookup_perm hnd hperm s

/-- C5: for every Resolver produced by `build` — in particular one built
from an empty builder — symbol 0 resolves to the empty string, and index 0
of the forward sequence is the empty-string sentinel. -/
theorem C5_resolve_zero_is_empty (b : InternerBuilder) :
    b.build.resolve_unchecked 0 = "" ∧ b.build.strs.head? = some "" := by
  constructor <;> simp [InternerBuilder.build, Resolver.resolve_unchecked]

/-- C8: on any builder state, a repeated `get_or_intern` of the same string
returns the identical symbol and leaves the builder (map and counter)
unchanged. -/
theorem C8_get_or_intern_idempotent (b : InternerBuilder) (s : String) :
    (b.get_or_intern s).2.get_or_intern s =
      ((b.get_or_intern s).1, (b.get_or_intern s).2) :=
  get_or_intern_of_mem (lookup_get_or_intern_self b s)

-- Sanity checks mirroring the test `can_build_interner` of the source and the
-- concrete scenario of the specification.
lemma sanity_intern_hello :
    ((InternerBuilder.new.get_or_intern "Hello").1 = 1) ∧
    (((InternerBuilder.new.get_or_intern "Hello").2.get_or_intern "World").1 = 2) := by
  decide

lemma sanity_build_strs :
    ((internAll InternerBuilder.new ["Hello", "World"]).build).strs =
      ["", "Hello", "World"] := by
  decide

lemma sanity_resolver :
    let r := (internAll InternerBuilder.new ["Hello", "World", "Hello"]).build
    r.get "World" = some 2 ∧ r.resolve_unchecked 1 = "Hello" ∧
      r.resolve_unchecked 0 = "" ∧ r.len = 3 := by
  decide

lemma zip_fst_snd (l : List (String × Nat)) :
    (l.map Prod.fst).zip (l.map Prod.snd) = l := by
  rw [List.zip_map']
  exact List.map_id l

lemma perm_eq_of_vals_eq_nodup :
    ∀ (l l' : List (String × Nat)), l.Perm l' →
      l.map Prod.snd = l'.map Prod.snd → (l.map Prod.snd).Nodup → l = l' := by
  intro l
  induction l with
  | nil =>
      intro l' hp _ _
      exact (hp.symm.eq_nil).symm
  | cons p ps ih =>
      intro l' hp hv hnd
      cases l' with
      | nil => cases hp.eq_nil
      | cons q qs =>
          simp only [List.map_cons] at hv
          have h1 : p.2 = q.2 := (List.cons.injEq _ _ _ _ ▸ hv).1
          have h2 : ps.map Prod.snd = qs.map Prod.snd :=
            (List.cons.injEq _ _ _ _ ▸ hv).2
          have hnd' := List.nodup_cons.mp hnd
          have hpq : p = q := by
            have hpmem : p ∈ q :: qs := hp.mem_iff.mp (List.mem_cons_self _ _)
            rcases List.mem_cons.mp hpmem with he | hm
            · exact he
            · exfalso
              have hin : p.2 ∈ qs.map Prod.snd :=
                List.mem_map_of_mem Prod.snd hm
              rw [← h2] at hin
              exact hnd'.1 hin
          rw [hpq]
          have hp' : ps.Perm qs := (hpq ▸ hp).cons_inv
          rw [ih qs hp' h2 hnd'.2]

lemma internAll_fresh_map (vs : List String) :
    ∀ (b : InternerBuilder), vs.Nodup →
      (∀ v ∈ vs, lookup b.map_strs v = none) →
      b.count + vs.length ≤ symMax →
      (internAll b vs).map_strs =
        (vs.zip (List.range' b.count vs.length)).reverse ++ b.map_strs := by
  induction vs with
  | nil =>
      intro b _ _ _
      simp
  | cons v vs ih =>
      intro b hnd hf hle
      have hv := hf v (List.mem_cons_self _ _)
      simp only [List.length_cons] at hle
      have hmin : min (b.count + 1) symMax = b.count + 1 := by omega
      have hb' : (b.get_or_intern v).2 =
          ⟨b.count + 1, (v, b.count) :: b.map_strs⟩ := by
        rw [get_or_intern_of_fresh hv]
        simp [hmin]
      have hf' : ∀ u ∈ vs,
          lookup ((⟨b.count + 1, (v, b.count) :: b.map_strs⟩ :
            InternerBuilder)).map_strs u = none := by
        intro u hu
        have huv : ¬ (v = u) := by
          rintro rfl
          exact (List.nodup_cons.mp hnd).1 hu
        simp [lookup, huv, hf u (List.mem_cons_of_mem _ hu)]
      have hle' : (⟨b.count + 1, (v, b.count) :: b.map_strs⟩ :
          InternerBuilder).count + vs.length ≤ symMax := by
        show b.count + 1 + vs.length ≤ symMax
        omega
      have hih := ih ⟨b.count + 1, (v, b.count) :: b.map_strs⟩
        (List.nodup_cons.mp hnd).2 hf' hle'
      rw [internAll_cons, hb', hih]
      show (vs.zip (List.range' (b.count + 1) vs.length)).reverse ++
          ((v, b.count) :: b.map_strs) =
        ((v :: vs).zip (List.range' b.count (vs.length + 1))).reverse ++
          b.map_strs
      rw [List.range'_succ, List.zip_cons_cons, List.reverse_cons,
        List.append_assoc]
      simp

lemma build_internAll_fresh (vs : List String) (hnd : vs.Nodup)
    (hle : 1 + vs.length ≤ symMax) :
    (internAll InternerBuilder.new vs).build.strs = "" :: vs ∧
      (internAll InternerBuilder.new vs).build.strs_map =
        vs.zip (List.range' 1 vs.length) := by
  have hf : ∀ v ∈ vs, lookup InternerBuilder.new.map_strs v = none := by
    intro v _
    rfl
  have hle' : InternerBuilder.new.count + vs.length ≤ symMax := hle
  have hmap := internAll_fresh_map vs InternerBuilder.new hnd hf hle'
  have hmap' : (internAll InternerBuilder.new vs).map_strs =
      (vs.zip (List.range' 1 vs.length)).reverse := by
    simpa [InternerBuilder.new] using hmap
  obtain ⟨hwf, -⟩ := wf_internAll wf_new hle'
  obtain ⟨hperm, hstrs⟩ := build_strs_map_perm (internAll InternerBuilder.new vs)
  have hlen_map : (internAll InternerBuilder.new vs).map_strs.length =
      vs.length := by
    rw [hmap']
    simp
  have hz : (internAll InternerBuilder.new vs).build.strs_map =
      vs.zip (List.range' 1 vs.length) := by
    apply perm_eq_of_vals_eq_nodup
    · refine hperm.trans ?_
      rw [hmap']
      exact List.reverse_perm _
    · rw [build_vals_eq_range' _ hwf, hlen_map]
      symm
      apply List.map_snd_zip
      simp
    · rw [build_vals_eq_range' _ hwf]
      exact (range'_pairwise_lt _ 1).imp (fun h => Nat.ne_of_lt h)
  refine ⟨?_, hz⟩
  rw [hstrs, hz]
  have : (vs.zip (List.range' 1 vs.length)).map Prod.fst = vs := by
    apply List.map_fst_zip
    simp
  rw [this]

lemma deserializeGo_cases (vs : List String) :
    ∀ (b : InternerBuilder), (∃ b', deserializeGo b vs = Except.ok b') ∨
      deserializeGo b vs = Except.error "Duplicate value" := by
  induction vs with
  | nil =>
      intro b
      left
      exact ⟨b, rfl⟩
  | cons v vs ih =>
      intro b
      cases h : lookup b.map_strs v with
      | some k =>
          right
          simp [deserializeGo, h]
      | none =>
          simpa [deserializeGo, h] using
            ih ⟨min (b.count + 1) symMax, (v, b.count) :: b.map_strs⟩

lemma deserializeGo_ok_iff (vs : List String) :
    ∀ (b : InternerBuilder), (b.map_strs.map Prod.fst).Nodup →
      ((∃ b', deserializeGo b vs = Except.ok b') ↔
        (b.map_strs.map Prod.fst ++ vs).Nodup) := by
  induction vs with
  | nil =>
      intro b hnd
      simp [deserializeGo, hnd]
  | cons v vs ih =>
      intro b hnd
      cases h : lookup b.map_strs v with
      | some k =>
          have hv : v ∈ b.map_strs.map Prod.fst :=
            List.mem_map_of_mem Prod.fst (lookup_mem h)
          constructor
          · intro hex
            obtain ⟨b', hb'⟩ := hex
            rw [show deserializeGo b (v :: vs) =
                Except.error "Duplicate value" from by simp [deserializeGo, h]]
              at hb'
            cases hb'
          · intro hnd'
            exfalso
            exact (List.disjoint_of_nodup_append hnd') hv
              (List.mem_cons_self _ _)
      | none =>
          have hv : v ∉ b.map_strs.map Prod.fst := (lookup_eq_none _ _).mp h
          have hred : deserializeGo b (v :: vs) =
              deserializeGo
                ⟨min (b.count + 1) symMax, (v, b.count) :: b.map_strs⟩ vs := by
            simp [deserializeGo, h]
          have hnd2 : (((⟨min (b.count + 1) symMax,
              (v, b.count) :: b.map_strs⟩ : InternerBuilder)).map_strs.map
              Prod.fst).Nodup :=
            List.nodup_cons.mpr ⟨hv, hnd⟩
          rw [hred, ih _ hnd2]
          show ((v :: b.map_strs.map Prod.fst) ++ vs).Nodup ↔ _
          rw [List.cons_append]
          exact (List.Perm.nodup_iff List.perm_middle).symm

lemma deserializeGo_eq_internAll (vs : List String) :
    ∀ (b : InternerBuilder), vs.Nodup →
      (∀ v ∈ vs, lookup b.map_strs v = none) →
      deserializeGo b vs = Except.ok (internAll b vs) := by
  induction vs with
  | nil =>
      intro b _ _
      rfl
  | cons v vs ih =>
      intro b hnd hf
      have hv := hf v (List.mem_cons_self _ _)
      have hred : deserializeGo b (v :: vs) =
          deserializeGo
            ⟨min (b.count + 1) symMax, (v, b.count) :: b.map_strs⟩ vs := by
        simp [deserializeGo, hv]
      have hstep : internAll b (v :: vs) =
          internAll ⟨min (b.count + 1) symMax, (v, b.count) :: b.map_strs⟩ vs := by
        rw [internAll_cons, get_or_intern_of_fresh hv]
      rw [hred, hstep]
      apply ih
      · exact (List.nodup_cons.mp hnd).2
      · intro u hu
        have huv : ¬ (v = u) := by
          rintro rfl
          exact (List.nodup_cons.mp hnd).1 hu
        simp [lookup, huv, hf u (List.mem_cons_of_mem _ hu)]

/-- C3 counterexample: explicitly interning the empty string produces a
Resolver whose forward sequence holds equal string content at the two
distinct symbols 0 and 1, so the sequence indexed `0..N` is not
pairwise-distinct for that builder. -/
theorem C3_counterexample :
    (internAll InternerBuilder.new [""]).build.strs = ["", ""] ∧
      (internAll InternerBuilder.new [""]).build.resolve_unchecked 0 =
        (internAll InternerBuilder.new [""]).build.resolve_unchecked 1 ∧
      (internAll InternerBuilder.new [""]).build.len = 2 := by
  decide

/-- C3 (amended): for every Resolver built from a reachable builder, the
non-sentinel entries (indices `1..N`) are pairwise distinct; the whole
sequence `0..N` is pairwise distinct provided the empty string was never
passed to `get_or_intern` (interning `""` duplicates the sentinel
content at a fresh symbol). -/
theorem C3_amended_distinct_views (ws : List String) :
    ((internAll InternerBuilder.new ws).build.strs.drop 1).Nodup ∧
      ("" ∉ ws → (internAll InternerBuilder.new ws).build.strs.Nodup) := by
  obtain ⟨hperm, hstrs⟩ :=
    build_strs_map_perm (internAll InternerBuilder.new ws)
  have hknd : ((internAll InternerBuilder.new ws).map_strs.map
      Prod.fst).Nodup :=
    keys_nodup_internAll (by simp [InternerBuilder.new])
  have hviews : ((internAll InternerBuilder.new ws).build.strs_map.map
      Prod.fst).Nodup :=
    ((hperm.map Prod.fst).nodup_iff).mpr hknd
  constructor
  · rw [hstrs]
    simpa using hviews
  · intro hnw
    rw [hstrs]
    refine List.nodup_cons.mpr ⟨?_, hviews⟩
    intro hmem
    have hin : "" ∈ (internAll InternerBuilder.new ws).map_strs.map
        Prod.fst :=
      ((hperm.map Prod.fst).mem_iff).mp hmem
    rcases keys_internAll_sub hin with h | h
    · exact hnw h
    · simp [InternerBuilder.new] at h

theorem C3_amended_witness :
    ((internAll InternerBuilder.new ["Hello"]).build.strs.drop 1).Nodup ∧
      (internAll InternerBuilder.new ["Hello"]).build.strs.Nodup :=
  ⟨(C3_amended_distinct_views ["Hello"]).1,
    (C3_amended_distinct_views ["Hello"]).2 (by decide)⟩

/-- C10: a Resolver built from a builder that never interned the empty
string resolves symbol 0 to `""`, yet the reverse lookup of `""` is
absent — the sentinel has no key in the reverse map. -/
theorem C10_sentinel_absent_from_reverse_map (ws : List String)
    (h : "" ∉ ws) :
    (internAll InternerBuilder.new ws).build.get "" = none ∧
      (internAll InternerBuilder.new ws).build.resolve_unchecked 0 = "" := by
  obtain ⟨hperm, hstrs⟩ :=
    build_strs_map_perm (internAll InternerBuilder.new ws)
  constructor
  · rw [Resolver.get, lookup_eq_none]
    intro hmem
    have hin : "" ∈ (internAll InternerBuilder.new ws).map_strs.map
        Prod.fst :=
      ((hperm.map Prod.fst).mem_iff).mp hmem
    rcases keys_internAll_sub hin with h' | h'
    · exact h h'
    · simp [InternerBuilder.new] at h'
  · rw [Resolver.resolve_unchecked, hstrs]
    rfl

theorem C10_witness :
    (internAll InternerBuilder.new ["Hello"]).build.get "" = none ∧
      (internAll InternerBuilder.new ["Hello"]).build.resolve_unchecked 0 =
        "" :=
  C10_sentinel_absent_from_reverse_map ["Hello"] (by decide)

/-- C4 (amended): for every string `s` interned at any point of a call
sequence whose total length keeps the counter strictly below its
saturation point, the returned symbol is a valid index of the resulting
Resolver and resolves back to exactly `s`. (Once the counter saturates,
distinct strings share the symbol `symMax` and the round trip fails for at
least one of them.) -/
theorem C4_amended_roundtrip (ws zs : List String) (s : String)
    (hlen : ws.length + zs.length + 2 ≤ symMax) :
    ((internAll InternerBuilder.new ws).get_or_intern s).1 <
        (internAll ((internAll InternerBuilder.new ws).get_or_intern s).2
          zs).build.len ∧
      (internAll ((internAll InternerBuilder.new ws).get_or_intern s).2
          zs).build.resolve_unchecked
        ((internAll InternerBuilder.new ws).get_or_intern s).1 = s := by
  have hc1 : InternerBuilder.new.count = 1 := rfl
  have hle0 : InternerBuilder.new.count + ws.length ≤ symMax := by omega
  obtain ⟨hwf0, hcnt0⟩ := wf_internAll wf_new hle0
  have hlt0 : (internAll InternerBuilder.new ws).count < symMax := by omega
  obtain ⟨hwf1, hcnt1⟩ := wf_get_or_intern hwf0 hlt0 s
  have hle1 : ((internAll InternerBuilder.new ws).get_or_intern s).2.count +
      zs.length ≤ symMax := by omega
  obtain ⟨hwf2, -⟩ := wf_internAll hwf1 hle1
  have hsym := lookup_get_or_intern_self (internAll InternerBuilder.new ws) s
  have hsym2 := lookup_internAll_preserve hsym zs
  exact build_resolve hwf2 hsym2

theorem C4_witness :
    ((internAll InternerBuilder.new []).get_or_intern "Hello").1 <
        (internAll ((internAll InternerBuilder.new []).get_or_intern
          "Hello").2 []).build.len ∧
      (internAll ((internAll InternerBuilder.new []).get_or_intern
          "Hello").2 []).build.resolve_unchecked
        ((internAll InternerBuilder.new []).get_or_intern "Hello").1 =
        "Hello" :=
  C4_amended_roundtrip [] [] "Hello" (by decide)

/-- C6: decoding fails with the `Duplicate value` error exactly when some
string value repeats among the entries at positions 1 onward, and yields a
Resolver exactly otherwise — on failure no Resolver, partial or otherwise,
is produced. -/
theorem C6_deserialize_duplicate_iff (values : List String) :
    (Resolver.deserialize values = Except.error "Duplicate value" ↔
      ¬ (values.drop 1).Nodup) ∧
      ((∃ r, Resolver.deserialize values = Except.ok r) ↔
        (values.drop 1).Nodup) := by
  have hnd : (InternerBuilder.new.map_strs.map Prod.fst).Nodup := by
    simp [InternerBuilder.new]
  have hiff := deserializeGo_ok_iff (values.drop 1) InternerBuilder.new hnd
  have hsimp : InternerBuilder.new.map_strs.map Prod.fst ++ values.drop 1 =
      values.drop 1 := by
    simp [InternerBuilder.new]
  rw [hsimp] at hiff
  have hcases := deserializeGo_cases (values.drop 1) InternerBuilder.new
  constructor
  · constructor
    · intro herr hnd'
      obtain ⟨b', hb'⟩ := hiff.mpr hnd'
      rw [Resolver.deserialize, hb'] at herr
      cases herr
    · intro hn
      rcases hcases with ⟨b', hb'⟩ | herr
      · exact absurd (hiff.mp ⟨b', hb'⟩) hn
      · rw [Resolver.deserialize, herr]
        rfl
  · constructor
    · intro hex
      obtain ⟨r, hr⟩ := hex
      rcases hcases with ⟨b', hb'⟩ | herr
      · exact hiff.mp ⟨b', hb'⟩
      · rw [Resolver.deserialize, herr] at hr
        cases hr
    · intro hnd'
      obtain ⟨b', hb'⟩ := hiff.mpr hnd'
      refine ⟨b'.build, ?_⟩
      rw [Resolver.deserialize, hb']
      rfl

/-- C9 counterexample: on input `["a", "a"]` the first element is nonempty
and the remaining elements have no duplicates, decoding succeeds — but the
first element does appear in the resulting Resolver (at symbol 1), because
it also occurs among the remaining elements. -/
theorem C9_counterexample :
    (Resolver.deserialize ["a", "a"]).toOption.map Resolver.strs =
        some ["", "a"] ∧
      (Resolver.deserialize ["a", "a"]).toOption.map
        (fun r => r.get "a") = some (some 1) := by
  decide

/-- C9 (amended): decoding discards position 0 unconditionally, without
checking that it is the sentinel: for every input whose first element is a
non-empty string and whose remaining elements contain no duplicates (and
fit in the symbol space), decoding succeeds, the resulting forward
sequence is the sentinel followed by exactly the remaining elements — so
the first element survives only if it also occurs among the remaining
elements — and symbol 0 still resolves to the empty string. -/
theorem C9_amended_decode_drops_head (v : String) (rest : List String)
    (_hv : v ≠ "") (hnd : rest.Nodup) (hle : 1 + rest.length ≤ symMax) :
    ∃ r, Resolver.deserialize (v :: rest) = Except.ok r ∧
      r.strs = "" :: rest ∧ r.resolve_unchecked 0 = "" := by
  have hgo := deserializeGo_eq_internAll rest InternerBuilder.new hnd
    (fun u _ => rfl)
  obtain ⟨hstrs, -⟩ := build_internAll_fresh rest hnd hle
  refine ⟨(internAll InternerBuilder.new rest).build, ?_, hstrs, ?_⟩
  · rw [Resolver.deserialize]
    have hdrop : (v :: rest).drop 1 = rest := rfl
    rw [hdrop, hgo]
    rfl
  · rw [Resolver.resolve_unchecked, hstrs]
    rfl

theorem C9_witness :
    ∃ r, Resolver.deserialize ["x", "y"] = Except.ok r ∧
      r.strs = "" :: ["y"] ∧ r.resolve_unchecked 0 = "" :=
  C9_amended_decode_drops_head "x" ["y"] (by decide) (by decide) (by decide)

/-- C7: decoding the encoding of a Resolver (built within the symbol
space) succeeds and produces a Resolver with the same forward sequence and
the same reverse-lookup results — every interned string keeps its original
symbol. -/
theorem C7_serialize_roundtrip (ws : List String)
    (hle : 1 + ws.length ≤ symMax) :
    ∃ r', Resolver.deserialize
        ((internAll InternerBuilder.new ws).build.serialize) =
          Except.ok r' ∧
      r'.strs = (internAll InternerBuilder.new ws).build.strs ∧
      ∀ s, r'.get s = (internAll InternerBuilder.new ws).build.get s := by
  have hle0 : InternerBuilder.new.count + ws.length ≤ symMax := hle
  obtain ⟨hwf, -⟩ := wf_internAll wf_new hle0
  obtain ⟨hperm, hstrs⟩ :=
    build_strs_map_perm (internAll InternerBuilder.new ws)
  set b := internAll InternerBuilder.new ws with hbdef
  set L := b.build.strs_map.map Prod.fst with hLdef
  have hLnd : L.Nodup := ((hperm.map Prod.fst).nodup_iff).mpr hwf.keys_nodup
  have hLlen : L.length = b.map_strs.length := by
    rw [hLdef]
    simp [hperm.length_eq]
  have hdrop : (b.build.serialize).drop 1 = L := by
    rw [Resolver.serialize, hstrs]
    simp
  have hgo := deserializeGo_eq_internAll L InternerBuilder.new hLnd
    (fun u _ => rfl)
  have hdeser : Resolver.deserialize (b.build.serialize) =
      Except.ok (internAll InternerBuilder.new L).build := by
    rw [Resolver.deserialize, hdrop, hgo]
    rfl
  have hleL : 1 + L.length ≤ symMax := by
    rw [hLlen]
    have h1 := hwf.count_eq
    have h2 := hwf.count_le
    omega
  obtain ⟨hstrs2, hsm2⟩ := build_internAll_fresh L hLnd hleL
  refine ⟨(internAll InternerBuilder.new L).build, hdeser, ?_, ?_⟩
  · rw [hstrs2, hstrs]
  · intro s
    rw [Resolver.get, Resolver.get, hsm2]
    have hvals : b.build.strs_map.map Prod.snd =
        List.range' 1 L.length := by
      rw [build_vals_eq_range' _ hwf, hLlen]
    have hzip : L.zip (List.range' 1 L.length) = b.build.strs_map := by
      rw [hLdef, ← hvals]
      exact zip_fst_snd _
    rw [hzip]

theorem C7_witness :
    ∃ r', Resolver.deserialize
        ((internAll InternerBuilder.new ["Hello", "World"]).build.serialize) =
          Except.ok r' ∧
      r'.strs = (internAll InternerBuilder.new ["Hello", "World"]).build.strs ∧
      ∀ s, r'.get s =
        (internAll InternerBuilder.new ["Hello", "World"]).build.get s :=
  C7_serialize_roundtrip ["Hello", "World"] (by decide)

lemma symMax_pos : 1 ≤ symMax := by
  norm_num [symMax]

lemma satFam_nodup : satFam.Nodup := by
  rw [satFam]
  refine List.Nodup.map ?_ (List.nodup_range _)
  intro i j hij
  have hdata : List.replicate (i + 1) 'a' = List.replicate (j + 1) 'a' :=
    congrArg String.data hij
  have hlen := congrArg List.length hdata
  simpa using hlen

lemma satFam_length : satFam.length = symMax - 1 := by
  rw [satFam]
  simp

lemma not_mem_satFam_of_head (ch : Char) (hch : ch ≠ 'a') :
    (⟨[ch]⟩ : String) ∉ satFam := by
  rw [satFam]
  intro hmem
  obtain ⟨i, hi, he⟩ := List.mem_map.mp hmem
  have hdata : List.replicate (i + 1) 'a' = [ch] := congrArg String.data he
  rw [List.replicate_succ] at hdata
  have hhead : 'a' = ch := (List.cons.injEq _ _ _ _ ▸ hdata).1
  exact hch hhead.symm

lemma satFam_not_mem_b : ("b" : String) ∉ satFam :=
  not_mem_satFam_of_head 'b' (by decide)

lemma satFam_not_mem_c : ("c" : String) ∉ satFam :=
  not_mem_satFam_of_head 'c' (by decide)

lemma satFam_fresh :
    ∀ w ∈ satFam, lookup InternerBuilder.new.map_strs w = none :=
  fun _ _ => rfl

lemma sat_count : (internAll InternerBuilder.new satFam).count = symMax := by
  have h := internAll_fresh_count satFam_fresh satFam_nodup
    (b := InternerBuilder.new) (by exact symMax_pos)
  rw [satFam_length] at h
  have hc : InternerBuilder.new.count = 1 := rfl
  have h1 := symMax_pos
  omega

lemma sat_keys :
    (internAll InternerBuilder.new satFam).map_strs.map Prod.fst =
      satFam.reverse := by
  have h := internAll_fresh_keys satFam_fresh satFam_nodup
  simpa [InternerBuilder.new] using h

lemma sat_map_length :
    (internAll InternerBuilder.new satFam).map_strs.length = symMax - 1 := by
  have h := internAll_fresh_length satFam_fresh satFam_nodup
  rw [satFam_length] at h
  rw [h]
  rfl

lemma sat_lookup_b :
    lookup (internAll InternerBuilder.new satFam).map_strs "b" = none := by
  rw [lookup_eq_none, sat_keys]
  intro hmem
  exact satFam_not_mem_b (List.mem_reverse.mp hmem)

lemma get_or_intern_fst_of_fresh {b : InternerBuilder} {s : String}
    (h : lookup b.map_strs s = none) : (b.get_or_intern s).1 = b.count := by
  rw [get_or_intern_of_fresh h]

lemma get_or_intern_snd_of_fresh {b : InternerBuilder} {s : String}
    (h : lookup b.map_strs s = none) :
    (b.get_or_intern s).2 =
      ⟨min (b.count + 1) symMax, (s, b.count) :: b.map_strs⟩ := by
  rw [get_or_intern_of_fresh h]

lemma sat_intern_b_fst :
    ((internAll InternerBuilder.new satFam).get_or_intern "b").1 = symMax :=
  (get_or_intern_fst_of_fresh sat_lookup_b).trans sat_count

lemma sat_intern_b_snd :
    ((internAll InternerBuilder.new satFam).get_or_intern "b").2 =
      ⟨symMax, ("b", symMax) ::
        (internAll InternerBuilder.new satFam).map_strs⟩ := by
  have h := get_or_intern_snd_of_fresh sat_lookup_b
  rw [sat_count, Nat.min_eq_right (Nat.le_succ _)] at h
  exact h

lemma sat_lookup_c :
    lookup (("b", symMax) ::
      (internAll InternerBuilder.new satFam).map_strs) "c" = none := by
  have hbc : ¬ (("b" : String) = "c") := by decide
  have hrest : lookup (internAll InternerBuilder.new satFam).map_strs "c" =
      none := by
    rw [lookup_eq_none, sat_keys]
    intro hmem
    exact satFam_not_mem_c (List.mem_reverse.mp hmem)
  rw [lookup, if_neg hbc, hrest]

lemma sat_intern_c_fst :
    (((internAll InternerBuilder.new satFam).get_or_intern
      "b").2.get_or_intern "c").1 = symMax := by
  have h1 : (((internAll InternerBuilder.new satFam).get_or_intern
      "b").2.get_or_intern "c") =
      ((⟨symMax, ("b", symMax) ::
        (internAll InternerBuilder.new satFam).map_strs⟩ :
        InternerBuilder).get_or_intern "c") :=
    congrArg (fun x => InternerBuilder.get_or_intern x "c") sat_intern_b_snd
  have h2 : ((⟨symMax, ("b", symMax) ::
      (internAll InternerBuilder.new satFam).map_strs⟩ :
      InternerBuilder).get_or_intern "c").1 = symMax :=
    get_or_intern_fst_of_fresh sat_lookup_c
  exact (congrArg Prod.fst h1).trans h2

lemma sat_intern_c_snd :
    (((internAll InternerBuilder.new satFam).get_or_intern
      "b").2.get_or_intern "c").2 =
      ⟨symMax, ("c", symMax) :: ("b", symMax) ::
        (internAll InternerBuilder.new satFam).map_strs⟩ := by
  have h1 : (((internAll InternerBuilder.new satFam).get_or_intern
      "b").2.get_or_intern "c") =
      ((⟨symMax, ("b", symMax) ::
        (internAll InternerBuilder.new satFam).map_strs⟩ :
        InternerBuilder).get_or_intern "c") :=
    congrArg (fun x => InternerBuilder.get_or_intern x "c") sat_intern_b_snd
  have h2 : ((⟨symMax, ("b", symMax) ::
      (internAll InternerBuilder.new satFam).map_strs⟩ :
      InternerBuilder).get_or_intern "c").2 =
      ⟨min (symMax + 1) symMax, ("c", symMax) :: ("b", symMax) ::
        (internAll InternerBuilder.new satFam).map_strs⟩ :=
    get_or_intern_snd_of_fresh sat_lookup_c
  rw [Nat.min_eq_right (Nat.le_succ _)] at h2
  exact (congrArg Prod.snd h1).trans h2

/-- C1 counterexample: after interning `symMax - 1` distinct strings from
a fresh builder the counter stands at the maximum identifier `symMax`;
`get_or_intern` of one more new string returns normally — no error, no
overflow indication — with the counter silently clamped (saturated) at
`symMax`, contradicting the claim that the counter is never silently
clamped. -/
theorem C1_counterexample :
    (internAll InternerBuilder.new satFam).count = symMax ∧
      ((internAll InternerBuilder.new satFam).get_or_intern "b").1 =
        symMax ∧
      ((internAll InternerBuilder.new satFam).get_or_intern "b").2.count =
        symMax := by
  refine ⟨sat_count, sat_intern_b_fst, ?_⟩
  have h4 : (⟨symMax, ("b", symMax) ::
      (internAll InternerBuilder.new satFam).map_strs⟩ :
      InternerBuilder).count = symMax := rfl
  exact (congrArg InternerBuilder.count sat_intern_b_snd).trans h4

/-- C1 (amended): `get_or_intern` surfaces no overflow condition at all:
when the counter is at the maximum representable identifier and a new
string is interned, the call returns normally with symbol `symMax` and the
counter silently stays clamped at `symMax` (`saturating_add`). -/
theorem C1_amended_silent_saturation (b : InternerBuilder) (s : String)
    (hc : b.count = symMax) (hs : lookup b.map_strs s = none) :
    (b.get_or_intern s).1 = symMax ∧
      (b.get_or_intern s).2.count = symMax := by
  rw [get_or_intern_of_fresh hs]
  refine ⟨hc, ?_⟩
  show min (b.count + 1) symMax = symMax
  rw [hc]
  exact Nat.min_eq_right (Nat.le_succ _)

theorem C1_witness :
    ((⟨symMax, []⟩ : InternerBuilder).get_or_intern "a").1 = symMax ∧
      ((⟨symMax, []⟩ : InternerBuilder).get_or_intern "a").2.count =
        symMax :=
  C1_amended_silent_saturation ⟨symMax, []⟩ "a" rfl rfl

/-- C2 counterexample: starting from a fresh builder and interning the
`symMax - 1` distinct strings of `satFam` followed by `"b"` and `"c"`,
the two distinct strings `"b"` and `"c"` receive the same symbol
(`symMax`), so `get_or_intern` is not injective on distinct strings. -/
theorem C2_counterexample :
    ("b" : String) ≠ "c" ∧
      ((internAll InternerBuilder.new satFam).get_or_intern "b").1 =
        (((internAll InternerBuilder.new satFam).get_or_intern
          "b").2.get_or_intern "c").1 :=
  ⟨by decide, sat_intern_b_fst.trans sat_intern_c_fst.symm⟩

/-- C2 (amended): two distinct strings interned anywhere in a call
sequence receive distinct symbols, provided the total number of calls
keeps the counter strictly below its saturation point `symMax`. -/
theorem C2_amended_injective (ws zs : List String) (s1 s2 : String)
    (hne : s1 ≠ s2) (hlen : ws.length + zs.length + 2 ≤ symMax) :
    ((internAll InternerBuilder.new ws).get_or_intern s1).1 ≠
      ((internAll ((internAll InternerBuilder.new ws).get_or_intern s1).2
        zs).get_or_intern s2).1 := by
  have hc1 : InternerBuilder.new.count = 1 := rfl
  have hle0 : InternerBuilder.new.count + ws.length ≤ symMax := by omega
  obtain ⟨hwf0, hcnt0⟩ := wf_internAll wf_new hle0
  have hlt0 : (internAll InternerBuilder.new ws).count < symMax := by omega
  obtain ⟨hwf1, hcnt1⟩ := wf_get_or_intern hwf0 hlt0 s1
  have hle1 : ((internAll InternerBuilder.new ws).get_or_intern s1).2.count +
      zs.length ≤ symMax := by omega
  obtain ⟨hwf2, -⟩ := wf_internAll hwf1 hle1
  have hs1 := lookup_get_or_intern_self (internAll InternerBuilder.new ws) s1
  have hs1' := lookup_internAll_preserve hs1 zs
  cases hs2 : lookup (internAll ((internAll
      InternerBuilder.new ws).get_or_intern s1).2 zs).map_strs s2 with
  | some k2 =>
      rw [get_or_intern_of_mem hs2]
      exact lookup_injective hwf2 hs1' hs2 hne
  | none =>
      rw [get_or_intern_of_fresh hs2]
      exact Nat.ne_of_lt (lookup_bounds hwf2 hs1').2

theorem C2_witness :
    ((internAll InternerBuilder.new []).get_or_intern "Hello").1 ≠
      ((internAll ((internAll InternerBuilder.new []).get_or_intern
        "Hello").2 []).get_or_intern "World").1 :=
  C2_amended_injective [] [] "Hello" "World" (by decide) (by decide)

/-- C4 counterexample: with the counter saturated, the distinct strings
`"b"` and `"c"` both receive symbol `symMax`, which is a valid index of
the Resolver built afterwards; one forward entry cannot round-trip both,
so `resolve(get_or_intern(s)) = s` fails for at least one interned
string. -/
theorem C4_counterexample :
    ((internAll InternerBuilder.new satFam).get_or_intern "b").1 = symMax ∧
      (((internAll InternerBuilder.new satFam).get_or_intern
        "b").2.get_or_intern "c").1 = symMax ∧
      symMax < ((((internAll InternerBuilder.new satFam).get_or_intern
        "b").2.get_or_intern "c").2.build).len ∧
      ¬ (((((internAll InternerBuilder.new satFam).get_or_intern
          "b").2.get_or_intern "c").2.build).resolve_unchecked symMax =
            "b" ∧
        ((((internAll InternerBuilder.new satFam).get_or_intern
          "b").2.get_or_intern "c").2.build).resolve_unchecked symMax =
            "c") := by
  refine ⟨sat_intern_b_fst, sat_intern_c_fst, ?_, ?_⟩
  · have e1 := congrArg InternerBuilder.map_strs sat_intern_c_snd
    have e2 := congrArg List.length e1
    rw [List.length_cons, List.length_cons, sat_map_length] at e2
    rw [build_len_eq, e2]
    have h1 := symMax_pos
    omega
  · rintro ⟨ha, hb⟩
    have hbc : ("b" : String) = "c" := ha.symm.trans hb
    exact absurd hbc (by decide)
